import Mathlib

/-!
Verification of the region post-processing and template-element core of the
pdf-accessibility Docling action.

The development shallowly embeds the two algorithmic stages of the repository:

* `process_bboxes.py` — the overlap detector (`bboxes_overlaps`), the
  pairwise-overlap scan (`_find_overlaps`), the connected-component grouping
  (`_group_overlaps`), the greedy conflict resolver (`_process_group`,
  `_get_removing_indexes`) and the driver (`get_list_of_regions`);
* `template_json.py` — the per-region element construction (bbox offset,
  coordinate transform, label classification) and the final element sort of
  `_create_json_for_elements`.

Numbers are modelled as rationals (`ℚ`): the Python floats involved are
detection boxes rounded to two decimals, scores, and small integer offsets,
all of which are exactly representable, and only comparisons and exact
arithmetic are performed on them.  Python sets of small ints are modelled
with ascending iteration order, which is CPython's observable behaviour for
the index sets involved (hash of a small nonnegative int is itself).
-/

/-- An axis-aligned detection box `(x_min, y_min, x_max, y_max)` in image
pixel space, top-left origin — `Region.box` in `ai.py`. -/
structure Box where
  xMin : ℚ
  yMin : ℚ
  xMax : ℚ
  yMax : ℚ
deriving DecidableEq, Repr

/-- A detection produced by the layout model: box, label and confidence
score — the `Region` class of `ai.py`. -/
structure Region where
  box : Box
  label : String
  score : ℚ
deriving DecidableEq, Repr

/-- Placeholder region used as the default value of list lookups; every
lookup performed by the embedded code is in bounds. -/
def defaultRegion : Region :=
  { box := { xMin := 0, yMin := 0, xMax := 0, yMax := 0 }, label := "", score := 0 }

/-- Region 1 lies strictly to the left of region 2
(`x_max_1 < x_min_2` in `bboxes_overlaps`). -/
def strictlyLeftOf (r1 r2 : Region) : Prop :=
  r1.box.xMax < r2.box.xMin

/-- Region 1 lies strictly above region 2 in image coordinates
(`y_max_1 < y_min_2` in `bboxes_overlaps`). -/
def strictlyAbove (r1 r2 : Region) : Prop :=
  r1.box.yMax < r2.box.yMin

/-- `bboxes_overlaps` of `process_bboxes.py`: two regions overlap unless one
is strictly left of, right of, above or below the other; the separation test
is strict, so equal-coordinate edges count as overlapping. -/
def bboxes_overlaps (r1 r2 : Region) : Bool :=
  decide (¬ (r1.box.xMax < r2.box.xMin ∨ r1.box.xMin > r2.box.xMax ∨
             r1.box.yMax < r2.box.yMin ∨ r1.box.yMin > r2.box.yMax))

/-- `PostProcessingBBoxes._find_overlaps`: all index pairs `(i, j)` with
`i < j` whose regions overlap, scanned in lexicographic order by the nested
index loops. -/
def findOverlaps (rs : List Region) : List (ℕ × ℕ) :=
  (List.range rs.length).flatMap (fun i =>
    ((List.range rs.length).filter (fun j =>
        decide (i < j) && bboxes_overlaps (rs.getD i defaultRegion) (rs.getD j defaultRegion))).map
      (fun j => (i, j)))

/-- `PostProcessingBBoxes._convert_overlaps_to_set`: the set of indices that
appear in at least one overlap pair, iterated in ascending order (CPython's
iteration order for a set of small nonnegative ints). -/
def overlapIndexSet (n : ℕ) (pairs : List (ℕ × ℕ)) : List ℕ :=
  (List.range n).filter (fun k => pairs.any (fun p => p.1 == k || p.2 == k))

/-- The indices directly paired with `k` in the overlap list: the members
added to `k`'s group by the inner loop of `_group_overlaps`. -/
def neighborsOf (pairs : List (ℕ × ℕ)) (k : ℕ) : Finset ℕ :=
  (pairs.filterMap (fun p =>
    if p.1 = k then some p.2 else if p.2 = k then some p.1 else none)).toFinset

/-- One iteration of the seeding loop of `_group_overlaps`: find the first
group containing `k` (`_get_group_index`), add `k`'s direct neighbours to
it, or append a fresh group holding just those neighbours. -/
def groupStep (pairs : List (ℕ × ℕ)) (groups : List (Finset ℕ)) (k : ℕ) :
    List (Finset ℕ) :=
  match groups.findIdx? (fun g => decide (k ∈ g)) with
  | none => groups ++ [neighborsOf pairs k]
  | some i => groups.set i (groups.getD i ∅ ∪ neighborsOf pairs k)

/-- The seeding phase of `_group_overlaps`: fold `groupStep` over the
overlapping indices. -/
def seedGroups (oset : List ℕ) (pairs : List (ℕ × ℕ)) : List (Finset ℕ) :=
  oset.foldl (groupStep pairs) []

/-- The inner loop of the merge phase of `_group_overlaps` for one kept
group `g`: scan the later groups left to right, absorbing into `g` every
group that intersects the running union and keeping the rest in order. -/
def mergeStep : Finset ℕ → List (Finset ℕ) → Finset ℕ × List (Finset ℕ)
  | g, [] => (g, [])
  | g, h :: t =>
    if (g ∩ h).Nonempty then mergeStep (g ∪ h) t
    else ((mergeStep g t).1, h :: (mergeStep g t).2)

/-- Fuel-indexed form of the merge pass; the fuel only serves to make the
recursion structural (each round consumes one kept group, so `l.length` fuel
always suffices). -/
def mergeAllAux : ℕ → List (Finset ℕ) → List (Finset ℕ)
  | 0, _ => []
  | _ + 1, [] => []
  | fuel + 1, g :: rest => (mergeStep g rest).1 :: mergeAllAux fuel (mergeStep g rest).2

/-- The single merge pass of `_group_overlaps` (outer loop over kept groups;
groups already absorbed are skipped, which is modelled by recursing on the
groups `mergeStep` left over). -/
def mergeAll (l : List (Finset ℕ)) : List (Finset ℕ) :=
  mergeAllAux l.length l

/-- `PostProcessingBBoxes._group_overlaps`: seed one neighbour set per
overlapping index, then run the single merge pass over the seeded groups. -/
def groupOverlaps (oset : List ℕ) (pairs : List (ℕ × ℕ)) : List (Finset ℕ) :=
  mergeAll (seedGroups oset pairs)

/-- Six regions forming a single overlap chain `0 – 5 – 2 – 3 – 4 – 1`
(each consecutive pair of boxes overlaps by two units, all other pairs are
strictly separated). -/
def chainRegions : List Region :=
  [ { box := { xMin := 0,  yMin := 0,  xMax := 12, yMax := 12 }, label := "Text", score := 1/2 },
    { box := { xMin := 50, yMin := 50, xMax := 62, yMax := 62 }, label := "Text", score := 1/2 },
    { box := { xMin := 20, yMin := 20, xMax := 32, yMax := 32 }, label := "Text", score := 1/2 },
    { box := { xMin := 30, yMin := 30, xMax := 42, yMax := 42 }, label := "Text", score := 1/2 },
    { box := { xMin := 40, yMin := 40, xMax := 52, yMax := 52 }, label := "Text", score := 1/2 },
    { box := { xMin := 10, yMin := 10, xMax := 22, yMax := 22 }, label := "Text", score := 1/2 } ]

/-- `PostProcessingBBoxes._is_direct_neightbour`: two indices are direct
neighbours when they occur together, in either order, in the overlap list. -/
def isNeighbor (pairs : List (ℕ × ℕ)) (a b : ℕ) : Bool :=
  pairs.any (fun p => (p.1 == a && p.2 == b) || (p.1 == b && p.2 == a))

/-- Python's `max(group, key=...)` over a set of small ints iterated in
ascending order: the first element attaining the maximal key wins ties. -/
def pythonMax (key : ℕ → ℚ) : List ℕ → ℕ
  | [] => 0
  | x :: xs => xs.foldl (fun m y => if key m < key y then y else m) x

/-- The members removed by one round of `_process_group`: every remaining
member other than the selected maximum that is its direct neighbour. -/
def roundRemoved (key : ℕ → ℚ) (pairs : List (ℕ × ℕ)) (g : List ℕ) : List ℕ :=
  g.filter (fun y => decide (y ≠ pythonMax key g) && isNeighbor pairs (pythonMax key g) y)

/-- The members carried into the next round of `_process_group`: every
remaining member other than the selected maximum that is not its direct
neighbour. -/
def roundCarried (key : ℕ → ℚ) (pairs : List (ℕ × ℕ)) (g : List ℕ) : List ℕ :=
  g.filter (fun y => decide (y ≠ pythonMax key g) && !(isNeighbor pairs (pythonMax key g) y))

/-- Fuel-indexed form of `_process_group`; each round drops the selected
maximum from the working group, so `g.length` fuel always suffices. -/
def processGroupAux (key : ℕ → ℚ) (pairs : List (ℕ × ℕ)) : ℕ → List ℕ → Finset ℕ
  | 0, _ => ∅
  | _ + 1, [] => ∅
  | fuel + 1, x :: xs =>
    (roundRemoved key pairs (x :: xs)).toFinset ∪
      processGroupAux key pairs fuel (roundCarried key pairs (x :: xs))

/-- `PostProcessingBBoxes._process_group`: repeatedly select the remaining
member with the highest score (ties to the lowest index, Python's first
maximum under ascending set iteration), drop its direct neighbours, and
carry the other members into the next round; returns the set of dropped
indices. -/
def processGroup (key : ℕ → ℚ) (pairs : List (ℕ × ℕ)) (g : List ℕ) : Finset ℕ :=
  processGroupAux key pairs g.length g

/-- The score of the region at index `i`, the sort key used by
`_process_group` (`float(self.results[x].score)`). -/
def scoreKey (results : List Region) (i : ℕ) : ℚ :=
  (results.getD i defaultRegion).score

/-- `PostProcessingBBoxes._get_removing_indexes`: union of the removal sets
of all groups; each group, a Python set of small ints, is iterated in
ascending order. -/
def getRemovingIndexes (results : List Region) (groups : List (Finset ℕ))
    (pairs : List (ℕ × ℕ)) : Finset ℕ :=
  groups.foldl (fun acc g =>
    acc ∪ processGroup (scoreKey results) pairs (g.sort (· ≤ ·))) ∅

/-- The set of indices removed by `get_list_of_regions` on the given input. -/
def removingSet (results : List Region) : Finset ℕ :=
  getRemovingIndexes results
    (groupOverlaps (overlapIndexSet results.length (findOverlaps results)) (findOverlaps results))
    (findOverlaps results)

/-- `PostProcessingBBoxes.get_list_of_regions`: keep the regions whose index
was not marked for removal, in input order (the final index loop of the
method). -/
def getListOfRegions (results : List Region) : List Region :=
  (results.enum.filter (fun p => decide (p.1 ∉ removingSet results))).map Prod.snd

/-- Some group of the list contains index `j`. -/
def holdsIdx (groups : List (Finset ℕ)) (j : ℕ) : Prop :=
  ∃ G ∈ groups, j ∈ G

/-- Some single group of the list contains both indices. -/
def coversPair (groups : List (Finset ℕ)) (i j : ℕ) : Prop :=
  ∃ G ∈ groups, i ∈ G ∧ j ∈ G

/-- Two regions of different scores whose boxes overlap: a minimal conflict. -/
def demoPair : List Region :=
  [ { box := { xMin := 0, yMin := 0, xMax := 10, yMax := 10 }, label := "Text", score := 1 },
    { box := { xMin := 5, yMin := 5, xMax := 15, yMax := 15 }, label := "Text", score := 0 } ]

/-- The end-to-end scenario of the specification: two overlapping text
regions and one isolated picture. -/
def demoScenario : List Region :=
  [ { box := { xMin := 0, yMin := 0, xMax := 100, yMax := 50 }, label := "Text", score := 1 },
    { box := { xMin := 50, yMin := 10, xMax := 150, yMax := 60 }, label := "Text", score := 0 },
    { box := { xMin := 200, yMin := 200, xMax := 250, yMax := 250 }, label := "Picture",
      score := 1 } ]

/-- `PdfDevRect` of the SDK: an integer rectangle in device (image pixel)
space, top-left origin, as filled by `_create_json_for_elements`. -/
structure DevRect where
  left : ℤ
  top : ℤ
  right : ℤ
  bottom : ℤ
deriving DecidableEq, Repr

/-- A rectangle in image space with rational coordinates: the argument type
of the abstract page-view transform (the external `RectToPage` capability
of §6 of the specification). -/
structure QRect where
  left : ℚ
  top : ℚ
  right : ℚ
  bottom : ℚ
deriving DecidableEq, Repr

/-- `PdfRect` of the SDK: a rectangle in page space
(left, bottom, right, top). -/
structure PageRect where
  left : ℚ
  bottom : ℚ
  right : ℚ
  top : ℚ
deriving DecidableEq, Repr

/-- Python's `int()` on a float: truncation toward zero. -/
def pyInt (q : ℚ) : ℤ :=
  if q < 0 then ⌈q⌉ else ⌊q⌋

/-- Python's `round()` on a float: round half to even. -/
def pyRound (q : ℚ) : ℤ :=
  if 2 * (q - ⌊q⌋) < 1 then ⌊q⌋
  else if 1 < 2 * (q - ⌊q⌋) then ⌊q⌋ + 1
  else if ⌊q⌋ % 2 = 0 then ⌊q⌋ else ⌊q⌋ + 1

/-- The `PdfDevRect` built for a region by `_create_json_for_elements`:
each side moved outward by the fixed offset 2 and converted by `int(...)`. -/
def devRectForRegion (r : Region) : DevRect :=
  { left := pyInt (r.box.xMin - 2),
    top := pyInt (r.box.yMin - 2),
    right := pyInt (r.box.xMax + 2),
    bottom := pyInt (r.box.yMax + 2) }

/-- The integer device rectangle viewed with rational coordinates, as handed
to the abstract page-view transform. -/
def qrectOfDev (d : DevRect) : QRect :=
  { left := (d.left : ℚ), top := (d.top : ℚ), right := (d.right : ℚ),
    bottom := (d.bottom : ℚ) }

/-- One element dictionary produced by `_create_json_for_elements`.  The
four coordinates of `bbox` stand for the decimal strings serialized by the
code (Python's `str` on floats is injective, so the numeric values model
the strings faithfully); `etype` models the `type` key; an absent optional
key is `none` and the always-assigned string keys start out empty. -/
structure Element where
  bbox : List ℚ
  comment : String
  tag : Option String
  flag : String
  text_flag : Option String
  etype : String
  heading : Option String
deriving DecidableEq, Repr

/-- The element as first filled before the label match: page-space `bbox`
in (left, bottom, right, top) order and the label/score comment. -/
def baseElement (T : QRect → PageRect) (r : Region) : Element :=
  { bbox := [(T (qrectOfDev (devRectForRegion r))).left,
             (T (qrectOfDev (devRectForRegion r))).bottom,
             (T (qrectOfDev (devRectForRegion r))).right,
             (T (qrectOfDev (devRectForRegion r))).top],
    comment := r.label.toLower ++ " " ++ toString (pyRound (r.score * 100)) ++ "%",
    tag := none,
    flag := "",
    text_flag := none,
    etype := "",
    heading := none }

/-- The enumerated label vocabulary of the match statement of
`_create_json_for_elements`, in source order. -/
def knownLabels : List String :=
  ["Caption", "Checkbox-Selected", "Checkbox-Unselected", "Code", "Document Index",
   "Footnote", "Form", "Formula", "Key-Value Region", "Picture", "Page-footer",
   "Page-header", "List-item", "Section-header", "Table", "Text", "Title"]

/-- The fields assigned by one case of the label match of
`_create_json_for_elements`: `tag`, `flag`, `text_flag`, `type` and
`heading` (an optional key a case does not assign stays absent, `none`),
plus whether the case is the warning fallback. -/
structure ClassRow where
  tag : Option String
  flag : String
  text_flag : Option String
  etype : String
  heading : Option String
  warn : Bool
deriving DecidableEq, Repr

/-- The label match of `_create_json_for_elements`, case by case in source
order; Python's `match` on string literals is the equivalent equality
chain, and the wildcard case is the fallback row that logs the
"No case for ..." warning. -/
def classRow (label : String) : ClassRow :=
  if label = "Caption" then
    { tag := some "Caption", flag := "no_join|no_split", text_flag := some "no_new_line",
      etype := "pde_text", heading := none, warn := false }
  else if label = "Checkbox-Selected" then
    { tag := none, flag := "no_join|no_split", text_flag := some "no_new_line",
      etype := "pde_text", heading := none, warn := false }
  else if label = "Checkbox-Unselected" then
    { tag := none, flag := "no_join|no_split", text_flag := some "no_new_line",
      etype := "pde_text", heading := none, warn := false }
  else if label = "Code" then
    { tag := none, flag := "no_join|no_split", text_flag := some "no_new_line",
      etype := "pde_text", heading := none, warn := false }
  else if label = "Document Index" then
    { tag := none, flag := "no_join|no_split", text_flag := some "no_new_line",
      etype := "pde_text", heading := none, warn := false }
  else if label = "Footnote" then
    { tag := none, flag := "no_join|no_split", text_flag := some "no_new_line",
      etype := "pde_text", heading := none, warn := false }
  else if label = "Form" then
    { tag := none, flag := "no_join|no_split", text_flag := some "no_new_line",
      etype := "pde_text", heading := none, warn := false }
  else if label = "Formula" then
    { tag := some "Formula", flag := "no_join|no_split", text_flag := none,
      etype := "pde_image", heading := none, warn := false }
  else if label = "Key-Value Region" then
    { tag := none, flag := "no_join|no_split", text_flag := some "no_new_line",
      etype := "pde_text", heading := none, warn := false }
  else if label = "Picture" then
    { tag := none, flag := "no_join|no_split", text_flag := none,
      etype := "pde_image", heading := none, warn := false }
  else if label = "Page-footer" then
    { tag := none, flag := "footer|artifact|no_join|no_split", text_flag := some "no_new_line",
      etype := "pde_text", heading := none, warn := false }
  else if label = "Page-header" then
    { tag := none, flag := "header|artifact|no_join|no_split", text_flag := some "no_new_line",
      etype := "pde_text", heading := none, warn := false }
  else if label = "List-item" then
    { tag := none, flag := "no_join|no_split", text_flag := some "no_new_line",
      etype := "pde_text", heading := none, warn := false }
  else if label = "Section-header" then
    { tag := none, flag := "no_join|no_split", text_flag := some "no_new_line",
      etype := "pde_text", heading := some "h1", warn := false }
  else if label = "Table" then
    { tag := none, flag := "no_join|no_split", text_flag := none,
      etype := "pde_table", heading := none, warn := false }
  else if label = "Text" then
    { tag := none, flag := "no_join|no_split", text_flag := some "no_new_line",
      etype := "pde_text", heading := none, warn := false }
  else if label = "Title" then
    { tag := some "Title", flag := "no_join|no_split", text_flag := some "no_new_line",
      etype := "pde_text", heading := none, warn := false }
  else
    { tag := none, flag := "no_join|no_split", text_flag := some "no_new_line",
      etype := "pde_text", heading := none, warn := true }

/-- One region's element as built by `_create_json_for_elements`: the base
element (bbox and comment) completed by the fields of the label's match
case, paired with whether the fallback warning fired. -/
def mkElement (T : QRect → PageRect) (r : Region) : Element × Bool :=
  ({ bbox := (baseElement T r).bbox,
     comment := (baseElement T r).comment,
     tag := (classRow r.label).tag,
     flag := (classRow r.label).flag,
     text_flag := (classRow r.label).text_flag,
     etype := (classRow r.label).etype,
     heading := (classRow r.label).heading }, (classRow r.label).warn)

/-- The coordinate of slot `i` of an element's serialized `bbox`
(`float(x["bbox"][i])` in the sort key). -/
def bbN (i : ℕ) (e : Element) : ℚ :=
  e.bbox.getD i 0

/-- The comparison realising Python's
`sorted(..., key=lambda x: (float(x["bbox"][1]), 1000.0 - float(x["bbox"][0])), reverse=True)`:
`x` may precede `y` when the key of `x` is lexicographically at least the
key of `y`. -/
def elemLe (x y : Element) : Bool :=
  decide (bbN 1 y < bbN 1 x ∨ (bbN 1 y = bbN 1 x ∧ 1000 - bbN 0 y ≤ 1000 - bbN 0 x))

/-- The element sort of `_create_json_for_elements`: Python's `sorted` with
`reverse=True` is the stable descending sort, modelled by a stable merge
sort under `elemLe`. -/
def sortElements (l : List Element) : List Element :=
  l.mergeSort elemLe

/-- Modelled from the spec (claim C2's wording): the same descending sort
but keyed on the page-space top edge — slot 3 of the serialized bbox —
rather than on slot 1.  Kept for comparison with `sortElements`. -/
def elemLeSpecTop (x y : Element) : Bool :=
  decide (bbN 3 y < bbN 3 x ∨ (bbN 3 y = bbN 3 x ∧ 1000 - bbN 0 y ≤ 1000 - bbN 0 x))

/-- Modelled from the spec (claim C2's wording): stable descending sort on
the tuple (top, 1000 − left). -/
def sortElementsSpecTop (l : List Element) : List Element :=
  l.mergeSort elemLeSpecTop

/-- Modelled from the spec (claim C5's wording): the box expanded outward
by exactly 2 units on each side, passed through the transform with no
integer truncation, serialized in (left, bottom, right, top) order. -/
def bboxPerClaim (T : QRect → PageRect) (r : Region) : List ℚ :=
  [(T { left := r.box.xMin - 2, top := r.box.yMin - 2,
        right := r.box.xMax + 2, bottom := r.box.yMax + 2 }).left,
   (T { left := r.box.xMin - 2, top := r.box.yMin - 2,
        right := r.box.xMax + 2, bottom := r.box.yMax + 2 }).bottom,
   (T { left := r.box.xMin - 2, top := r.box.yMin - 2,
        right := r.box.xMax + 2, bottom := r.box.yMax + 2 }).right,
   (T { left := r.box.xMin - 2, top := r.box.yMin - 2,
        right := r.box.xMax + 2, bottom := r.box.yMax + 2 }).top]

/-- `_create_json_for_elements`: classify every surviving region, skipping
the append for label "List-item" (the `continue`), then sort. -/
def createJsonForElements (T : QRect → PageRect) (results : List Region) : List Element :=
  sortElements ((getListOfRegions results).foldl
    (fun acc r => if r.label = "List-item" then acc else acc ++ [(mkElement T r).1]) [])

/-- A concrete page-view transform used by the demonstrations: a vertical
flip of a height-100 page, the typical shape of `RectToPage`. -/
def demoTransform : QRect → PageRect :=
  fun q => { left := q.left, bottom := 100 - q.bottom, right := q.right, top := 100 - q.top }

/-- A region with a non-integral left edge (boxes carry floats rounded to
two decimals, so such values occur); `int()` truncates `10.5 - 2` to `8`. -/
def truncRegion : Region :=
  { box := { xMin := 21/2, yMin := 4, xMax := 20, yMax := 30 }, label := "Text", score := 1 }

/-- A plain text region with integral coordinates. -/
def demoTextRegion : Region :=
  { box := { xMin := 0, yMin := 0, xMax := 10, yMax := 10 }, label := "Text", score := 1 }

/-- A tall element: page-space bottom edge 5, top edge 20. -/
def elemTall : Element :=
  { bbox := [0, 5, 10, 20], comment := "tall", tag := none, flag := "no_join|no_split",
    text_flag := none, etype := "pde_text", heading := none }

/-- A short element lower down: bottom edge 10, top edge 12. -/
def elemShort : Element :=
  { bbox := [0, 10, 10, 12], comment := "short", tag := none, flag := "no_join|no_split",
    text_flag := none, etype := "pde_text", heading := none }

/-- Two elements with equal sort keys (same bottom and left edges). -/
def elemKeyA : Element :=
  { bbox := [0, 5, 10, 20], comment := "a", tag := none, flag := "no_join|no_split",
    text_flag := none, etype := "pde_text", heading := none }

/-- A second element with the same sort key as `elemKeyA`. -/
def elemKeyB : Element :=
  { bbox := [0, 5, 9, 9], comment := "b", tag := none, flag := "no_join|no_split",
    text_flag := none, etype := "pde_text", heading := none }

/-- A region with a label outside the known vocabulary. -/
def demoUnknown : Region :=
  { box := { xMin := 0, yMin := 0, xMax := 10, yMax := 10 }, label := "Banana", score := 1 }

theorem mem_findOverlaps {rs : List Region} {i j : ℕ} :
    (i, j) ∈ findOverlaps rs ↔
      i < j ∧ j < rs.length ∧
        bboxes_overlaps (rs.getD i defaultRegion) (rs.getD j defaultRegion) = true := by
  simp only [findOverlaps, List.mem_flatMap, List.mem_map, List.mem_filter, List.mem_range,
    Bool.and_eq_true, decide_eq_true_eq]
  constructor
  · rintro ⟨a, ha, b, ⟨hb, hab, hover⟩, h⟩
    obtain ⟨rfl, rfl⟩ := Prod.mk.injEq .. ▸ h
    exact ⟨hab, hb, hover⟩
  · rintro ⟨hij, hj, hover⟩
    exact ⟨i, lt_trans hij hj, j, ⟨hj, hij, hover⟩, rfl⟩

/-- Claim C4: the overlap detector returns true iff neither rectangle is
strictly left of, strictly right of, strictly above or strictly below the
other; the result is symmetric; and boxes that merely touch at an
equal-coordinate edge, such as `(0,0,10,10)` and `(10,0,20,10)`, are
reported as overlapping. -/
theorem overlap_detector_spec :
    (∀ r1 r2 : Region, bboxes_overlaps r1 r2 = true ↔
      ¬ (strictlyLeftOf r1 r2 ∨ strictlyLeftOf r2 r1 ∨
         strictlyAbove r1 r2 ∨ strictlyAbove r2 r1)) ∧
    (∀ r1 r2 : Region, bboxes_overlaps r1 r2 = bboxes_overlaps r2 r1) ∧
    bboxes_overlaps
      { box := { xMin := 0, yMin := 0, xMax := 10, yMax := 10 }, label := "A", score := 1 }
      { box := { xMin := 10, yMin := 0, xMax := 20, yMax := 10 }, label := "B", score := 1 }
      = true := by
  refine ⟨?_, ?_, by decide⟩
  · intro r1 r2
    simp only [bboxes_overlaps, strictlyLeftOf, strictlyAbove, decide_eq_true_eq, gt_iff_lt]
  · intro r1 r2
    simp only [bboxes_overlaps, gt_iff_lt, decide_eq_decide]
    tauto

theorem mergeStep_snd_length (g : Finset ℕ) (l : List (Finset ℕ)) :
    (mergeStep g l).2.length ≤ l.length := by
  induction l generalizing g with
  | nil => simp [mergeStep]
  | cons h t ih =>
    by_cases hgh : (g ∩ h).Nonempty
    · simp only [mergeStep, if_pos hgh]
      exact le_trans (ih (g ∪ h)) (Nat.le_succ _)
    · simp only [mergeStep, if_neg hgh, List.length_cons]
      exact Nat.succ_le_succ (ih g)

theorem mergeAllAux_fuel (f1 : ℕ) : ∀ (f2 : ℕ) (l : List (Finset ℕ)),
    l.length ≤ f1 → l.length ≤ f2 → mergeAllAux f1 l = mergeAllAux f2 l := by
  induction f1 with
  | zero =>
    intro f2 l h1 _
    rw [Nat.le_zero, List.length_eq_zero] at h1
    subst h1
    cases f2 <;> rfl
  | succ f1 ih =>
    intro f2 l h1 h2
    match l, f2 with
    | [], f2 => cases f2 <;> rfl
    | g :: rest, f2 + 1 =>
      have hlen := mergeStep_snd_length g rest
      show _ :: mergeAllAux f1 (mergeStep g rest).2 = _ :: mergeAllAux f2 (mergeStep g rest).2
      rw [ih f2 _ (le_trans hlen (Nat.le_of_succ_le_succ h1))
        (le_trans hlen (Nat.le_of_succ_le_succ h2))]

theorem mergeAll_cons (g : Finset ℕ) (rest : List (Finset ℕ)) :
    mergeAll (g :: rest) = (mergeStep g rest).1 :: mergeAll (mergeStep g rest).2 := by
  show mergeAllAux (rest.length + 1) (g :: rest) = _
  rw [mergeAllAux, mergeAll,
    mergeAllAux_fuel rest.length (mergeStep g rest).2.length _ (mergeStep_snd_length g rest)
      (Nat.le_refl _)]

/-- Claim C1 (failing run): on the six-region chain the overlap graph is the
single connected chain `0 – 5 – 2 – 3 – 4 – 1`, whose only connected
component is `{0, 1, 2, 3, 4, 5}`, yet `_group_overlaps` returns the two
groups `{0, 2, 3, 4, 5}` and `{1, 3, 4}`: they are not pairwise disjoint
(indices 3 and 4 belong to both) and neither is the full component.  The
single merge pass of the code never revisits a kept group, contradicting
the function's own docstring ("Create disjointed groups", "Return disjoint
sets"). -/
theorem grouping_not_disjoint_on_chain :
    findOverlaps chainRegions = [(0, 5), (1, 4), (2, 3), (2, 5), (3, 4)] ∧
    groupOverlaps (overlapIndexSet chainRegions.length (findOverlaps chainRegions))
        (findOverlaps chainRegions) = [{0, 2, 3, 4, 5}, {1, 3, 4}] ∧
    ¬ Disjoint ({0, 2, 3, 4, 5} : Finset ℕ) ({1, 3, 4} : Finset ℕ) ∧
    ({0, 2, 3, 4, 5} : Finset ℕ) ≠ {0, 1, 2, 3, 4, 5} ∧
    ({1, 3, 4} : Finset ℕ) ≠ {0, 1, 2, 3, 4, 5} := by
  refine ⟨by decide, by decide, ?_, by decide, by decide⟩
  intro h
  have h3 : (3 : ℕ) ∈ ({0, 2, 3, 4, 5} : Finset ℕ) ⊓ ({1, 3, 4} : Finset ℕ) := by decide
  rw [disjoint_iff.mp h] at h3
  exact absurd h3 (by decide)

theorem pythonMax_mem (key : ℕ → ℚ) (x : ℕ) (xs : List ℕ) :
    pythonMax key (x :: xs) ∈ x :: xs := by
  suffices h : ∀ (ys : List ℕ) (m : ℕ),
      ys.foldl (fun m y => if key m < key y then y else m) m ∈ m :: ys by
    simpa [pythonMax] using h xs x
  intro ys
  induction ys with
  | nil => simp
  | cons y ys ih =>
    intro m
    simp only [List.foldl_cons]
    by_cases hk : key m < key y
    · rw [if_pos hk]
      rcases List.mem_cons.mp (ih y) with h | h
      · simp [h]
      · simp [List.mem_cons, h]
    · rw [if_neg hk]
      rcases List.mem_cons.mp (ih m) with h | h
      · simp [h]
      · simp [List.mem_cons, h]

theorem pythonMax_le (key : ℕ → ℚ) (x : ℕ) (xs : List ℕ) :
    ∀ y ∈ x :: xs, key y ≤ key (pythonMax key (x :: xs)) := by
  suffices h : ∀ (ys : List ℕ) (m : ℕ) (y : ℕ), y ∈ m :: ys →
      key y ≤ key (ys.foldl (fun m y => if key m < key y then y else m) m) by
    intro y hy
    simpa [pythonMax] using h xs x y hy
  intro ys
  induction ys with
  | nil =>
    intro m y hy
    simp only [List.mem_singleton] at hy
    simp [hy]
  | cons z zs ih =>
    intro m y hy
    simp only [List.foldl_cons]
    by_cases hk : key m < key z
    · rw [if_pos hk]
      rcases List.mem_cons.mp hy with h | h
      · exact le_trans (h ▸ le_of_lt hk) (ih z z (List.mem_cons_self z zs))
      · rcases List.mem_cons.mp h with h' | h'
        · exact ih z y (h' ▸ List.mem_cons_self z zs)
        · exact ih z y (List.mem_cons_of_mem z h')
    · rw [if_neg hk]
      rcases List.mem_cons.mp hy with h | h
      · exact ih m y (h ▸ List.mem_cons_self m zs)
      · rcases List.mem_cons.mp h with h' | h'
        · exact le_trans (h' ▸ le_of_not_lt hk) (ih m m (List.mem_cons_self m zs))
        · exact ih m y (List.mem_cons_of_mem m h')

theorem roundCarried_length_lt (key : ℕ → ℚ) (pairs : List (ℕ × ℕ)) (x : ℕ) (xs : List ℕ) :
    (roundCarried key pairs (x :: xs)).length < (x :: xs).length := by
  apply List.length_filter_lt_length_iff_exists.mpr
  refine ⟨pythonMax key (x :: xs), pythonMax_mem key x xs, ?_⟩
  simp

theorem processGroupAux_fuel (key : ℕ → ℚ) (pairs : List (ℕ × ℕ)) (f1 : ℕ) :
    ∀ (f2 : ℕ) (g : List ℕ), g.length ≤ f1 → g.length ≤ f2 →
      processGroupAux key pairs f1 g = processGroupAux key pairs f2 g := by
  induction f1 with
  | zero =>
    intro f2 g h1 _
    rw [Nat.le_zero, List.length_eq_zero] at h1
    subst h1
    cases f2 <;> rfl
  | succ f1 ih =>
    intro f2 g h1 h2
    match g, f2 with
    | [], f2 => cases f2 <;> rfl
    | x :: xs, f2 + 1 =>
      have hlen := Nat.lt_succ_iff.mp (roundCarried_length_lt key pairs x xs)
      show _ ∪ processGroupAux key pairs f1 _ = _ ∪ processGroupAux key pairs f2 _
      rw [ih f2 _ (le_trans hlen (Nat.le_of_succ_le_succ h1))
        (le_trans hlen (Nat.le_of_succ_le_succ h2))]

theorem processGroup_cons (key : ℕ → ℚ) (pairs : List (ℕ × ℕ)) (x : ℕ) (xs : List ℕ) :
    processGroup key pairs (x :: xs) =
      (roundRemoved key pairs (x :: xs)).toFinset ∪
        processGroup key pairs (roundCarried key pairs (x :: xs)) := by
  show processGroupAux key pairs (xs.length + 1) (x :: xs) = _
  rw [processGroupAux, processGroup,
    processGroupAux_fuel key pairs xs.length (roundCarried key pairs (x :: xs)).length _
      (Nat.lt_succ_iff.mp (roundCarried_length_lt key pairs x xs)) (Nat.le_refl _)]

theorem isNeighbor_symm (pairs : List (ℕ × ℕ)) (a b : ℕ) :
    isNeighbor pairs a b = isNeighbor pairs b a := by
  unfold isNeighbor
  induction pairs with
  | nil => rfl
  | cons p ps ih =>
    simp only [List.any_cons, ih, Bool.or_comm (p.1 == a && p.2 == b)]

theorem mem_roundRemoved {key : ℕ → ℚ} {pairs : List (ℕ × ℕ)} {g : List ℕ} {y : ℕ} :
    y ∈ roundRemoved key pairs g ↔
      y ∈ g ∧ y ≠ pythonMax key g ∧ isNeighbor pairs (pythonMax key g) y = true := by
  simp [roundRemoved, List.mem_filter, and_assoc]

theorem mem_roundCarried {key : ℕ → ℚ} {pairs : List (ℕ × ℕ)} {g : List ℕ} {y : ℕ} :
    y ∈ roundCarried key pairs g ↔
      y ∈ g ∧ y ≠ pythonMax key g ∧ isNeighbor pairs (pythonMax key g) y = false := by
  simp [roundCarried, List.mem_filter, and_assoc]

theorem processGroupAux_mem_subset (key : ℕ → ℚ) (pairs : List (ℕ × ℕ)) (fuel : ℕ) :
    ∀ (g : List ℕ) (x : ℕ), x ∈ processGroupAux key pairs fuel g → x ∈ g := by
  induction fuel with
  | zero =>
    intro g x hx
    exact absurd hx (Finset.not_mem_empty x)
  | succ fuel ih =>
    intro g x hx
    match g with
    | [] => exact absurd hx (Finset.not_mem_empty x)
    | z :: zs =>
      rcases Finset.mem_union.mp hx with h | h
      · exact (mem_roundRemoved.mp (List.mem_toFinset.mp h)).1
      · exact (mem_roundCarried.mp (ih _ x h)).1

theorem processGroup_mem_subset (key : ℕ → ℚ) (pairs : List (ℕ × ℕ)) (g : List ℕ) (x : ℕ)
    (hx : x ∈ processGroup key pairs g) : x ∈ g :=
  processGroupAux_mem_subset key pairs g.length g x hx

theorem processGroup_max_not_mem (key : ℕ → ℚ) (pairs : List (ℕ × ℕ)) (x : ℕ) (xs : List ℕ) :
    pythonMax key (x :: xs) ∉ processGroup key pairs (x :: xs) := by
  rw [processGroup_cons]
  intro hmem
  rcases Finset.mem_union.mp hmem with h | h
  · exact (mem_roundRemoved.mp (List.mem_toFinset.mp h)).2.1 rfl
  · exact (mem_roundCarried.mp (processGroup_mem_subset key pairs _ _ h)).2.1 rfl

theorem processGroupAux_dominated (key : ℕ → ℚ) (pairs : List (ℕ × ℕ)) (fuel : ℕ) :
    ∀ (g : List ℕ), g.length ≤ fuel → ∀ x ∈ processGroupAux key pairs fuel g,
      ∃ m, m ∈ g ∧ m ∉ processGroupAux key pairs fuel g ∧
        isNeighbor pairs m x = true ∧ key x ≤ key m := by
  induction fuel with
  | zero =>
    intro g _ x hx
    exact absurd hx (Finset.not_mem_empty x)
  | succ fuel ih =>
    intro g hg x hx
    match g with
    | [] => exact absurd hx (Finset.not_mem_empty x)
    | z :: zs =>
      have hcar : (roundCarried key pairs (z :: zs)).length ≤ fuel :=
        le_trans (Nat.lt_succ_iff.mp (roundCarried_length_lt key pairs z zs))
          (Nat.le_of_succ_le_succ hg)
      rcases Finset.mem_union.mp hx with h | h
      · obtain ⟨hxg, _, hnb⟩ := mem_roundRemoved.mp (List.mem_toFinset.mp h)
        refine ⟨pythonMax key (z :: zs), pythonMax_mem key z zs, ?_, hnb, pythonMax_le key z zs x hxg⟩
        intro hmem
        rcases Finset.mem_union.mp hmem with h' | h'
        · exact (mem_roundRemoved.mp (List.mem_toFinset.mp h')).2.1 rfl
        · exact (mem_roundCarried.mp (processGroupAux_mem_subset key pairs fuel _ _ h')).2.1 rfl
      · obtain ⟨m, hmcar, hmnot, hmnb, hmkey⟩ := ih _ hcar x h
        obtain ⟨hmg, hmne, hmnbmax⟩ := mem_roundCarried.mp hmcar
        refine ⟨m, hmg, ?_, hmnb, hmkey⟩
        intro hmem
        rcases Finset.mem_union.mp hmem with h' | h'
        · obtain ⟨_, _, hnb'⟩ := mem_roundRemoved.mp (List.mem_toFinset.mp h')
          rw [hmnbmax] at hnb'
          exact Bool.false_ne_true hnb'
        · exact hmnot h'

theorem processGroupAux_edge (key : ℕ → ℚ) (pairs : List (ℕ × ℕ)) (fuel : ℕ) :
    ∀ (g : List ℕ) (i j : ℕ), g.length ≤ fuel → i ≠ j → isNeighbor pairs i j = true →
      i ∈ g → j ∈ g →
      i ∈ processGroupAux key pairs fuel g ∨ j ∈ processGroupAux key pairs fuel g := by
  induction fuel with
  | zero =>
    intro g i j hg _ _ hi _
    rw [Nat.le_zero, List.length_eq_zero] at hg
    subst hg
    exact absurd hi (List.not_mem_nil i)
  | succ fuel ih =>
    intro g i j hg hne hnb hi hj
    match g with
    | [] => exact absurd hi (List.not_mem_nil i)
    | z :: zs =>
      have hcar : (roundCarried key pairs (z :: zs)).length ≤ fuel :=
        le_trans (Nat.lt_succ_iff.mp (roundCarried_length_lt key pairs z zs))
          (Nat.le_of_succ_le_succ hg)
      by_cases him : i = pythonMax key (z :: zs)
      · right
        apply Finset.mem_union_left
        apply List.mem_toFinset.mpr
        exact mem_roundRemoved.mpr ⟨hj, fun h => hne (him.trans h.symm) , him ▸ hnb⟩
      · by_cases hjm : j = pythonMax key (z :: zs)
        · left
          apply Finset.mem_union_left
          apply List.mem_toFinset.mpr
          refine mem_roundRemoved.mpr ⟨hi, fun h => hne (h.trans hjm.symm), ?_⟩
          rw [← hjm, isNeighbor_symm, hnb]
        · by_cases hinb : isNeighbor pairs (pythonMax key (z :: zs)) i = true
          · left
            exact Finset.mem_union_left _ (List.mem_toFinset.mpr
              (mem_roundRemoved.mpr ⟨hi, him, hinb⟩))
          · by_cases hjnb : isNeighbor pairs (pythonMax key (z :: zs)) j = true
            · right
              exact Finset.mem_union_left _ (List.mem_toFinset.mpr
                (mem_roundRemoved.mpr ⟨hj, hjm, hjnb⟩))
            · have hic : i ∈ roundCarried key pairs (z :: zs) :=
                mem_roundCarried.mpr ⟨hi, him, Bool.not_eq_true _ ▸ hinb⟩
              have hjc : j ∈ roundCarried key pairs (z :: zs) :=
                mem_roundCarried.mpr ⟨hj, hjm, Bool.not_eq_true _ ▸ hjnb⟩
              rcases ih _ i j hcar hne hnb hic hjc with h | h
              · exact Or.inl (Finset.mem_union_right _ h)
              · exact Or.inr (Finset.mem_union_right _ h)

theorem groupStep_mono (pairs : List (ℕ × ℕ)) (groups : List (Finset ℕ)) (k : ℕ) :
    ∀ G ∈ groups, ∃ G' ∈ groupStep pairs groups k, G ⊆ G' := by
  intro G hG
  unfold groupStep
  cases hfind : groups.findIdx? (fun g => decide (k ∈ g)) with
  | none => exact ⟨G, List.mem_append.mpr (Or.inl hG), subset_rfl⟩
  | some i =>
    obtain ⟨hi, _, _⟩ := List.findIdx?_eq_some_iff_getElem.mp hfind
    obtain ⟨m, hm, rfl⟩ := List.mem_iff_getElem.mp hG
    by_cases hmi : i = m
    · refine ⟨groups.getD i ∅ ∪ neighborsOf pairs k, ?_, ?_⟩
      · have hlen : i < (groups.set i (groups.getD i ∅ ∪ neighborsOf pairs k)).length := by
          rw [List.length_set]; exact hi
        have := List.getElem_set (l := groups) (m := i)
          (a := groups.getD i ∅ ∪ neighborsOf pairs k) hlen
        rw [if_pos rfl] at this
        exact this ▸ List.getElem_mem hlen
      · subst hmi
        rw [List.getD_eq_getElem groups ∅ hi]
        exact Finset.subset_union_left
    · refine ⟨groups[m], ?_, subset_rfl⟩
      have hlen : m < (groups.set i (groups.getD i ∅ ∪ neighborsOf pairs k)).length := by
        rw [List.length_set]; exact hm
      have := List.getElem_set (l := groups) (m := i)
        (a := groups.getD i ∅ ∪ neighborsOf pairs k) hlen
      rw [if_neg hmi] at this
      exact this ▸ List.getElem_mem hlen

theorem holdsIdx_mono {groups : List (Finset ℕ)} {pairs : List (ℕ × ℕ)} {k j : ℕ}
    (h : holdsIdx groups j) : holdsIdx (groupStep pairs groups k) j := by
  obtain ⟨G, hG, hj⟩ := h
  obtain ⟨G', hG', hsub⟩ := groupStep_mono pairs groups k G hG
  exact ⟨G', hG', hsub hj⟩

theorem coversPair_mono {groups : List (Finset ℕ)} {pairs : List (ℕ × ℕ)} {k i j : ℕ}
    (h : coversPair groups i j) : coversPair (groupStep pairs groups k) i j := by
  obtain ⟨G, hG, hi, hj⟩ := h
  obtain ⟨G', hG', hsub⟩ := groupStep_mono pairs groups k G hG
  exact ⟨G', hG', hsub hi, hsub hj⟩

theorem mem_neighborsOf {pairs : List (ℕ × ℕ)} {k j : ℕ} :
    j ∈ neighborsOf pairs k ↔
      (∃ p ∈ pairs, p.1 = k ∧ p.2 = j) ∨ (∃ p ∈ pairs, p.1 = j ∧ p.2 = k ∧ p.1 ≠ k) := by
  unfold neighborsOf
  rw [List.mem_toFinset, List.mem_filterMap]
  constructor
  · rintro ⟨p, hp, hsome⟩
    by_cases h1 : p.1 = k
    · rw [if_pos h1, Option.some.injEq] at hsome
      exact Or.inl ⟨p, hp, h1, hsome⟩
    · rw [if_neg h1] at hsome
      by_cases h2 : p.2 = k
      · rw [if_pos h2, Option.some.injEq] at hsome
        exact Or.inr ⟨p, hp, hsome, h2, h1⟩
      · rw [if_neg h2] at hsome
        exact absurd hsome (Option.noConfusion)
  · rintro (⟨p, hp, h1, h2⟩ | ⟨p, hp, h1, h2, h3⟩)
    · exact ⟨p, hp, by rw [if_pos h1, h2]⟩
    · exact ⟨p, hp, by rw [if_neg h3, if_pos h2, h1]⟩

/-- After the seeding step for index `k`, some group contains all direct
neighbours of `k`; if some group already contained `k`, that group also
contains `k` itself. -/
theorem groupStep_new (pairs : List (ℕ × ℕ)) (groups : List (Finset ℕ)) (k : ℕ) :
    ∃ U ∈ groupStep pairs groups k,
      neighborsOf pairs k ⊆ U ∧ (holdsIdx groups k → k ∈ U) := by
  unfold groupStep
  cases hfind : groups.findIdx? (fun g => decide (k ∈ g)) with
  | none =>
    refine ⟨neighborsOf pairs k, List.mem_append.mpr (Or.inr (List.mem_singleton_self _)),
      subset_rfl, ?_⟩
    intro hidx
    obtain ⟨G, hG, hk⟩ := hidx
    rw [List.findIdx?_eq_none_iff] at hfind
    have := hfind G hG
    rw [decide_eq_false_iff_not] at this
    exact absurd hk this
  | some i =>
    obtain ⟨hi, hpi, _⟩ := List.findIdx?_eq_some_iff_getElem.mp hfind
    refine ⟨groups.getD i ∅ ∪ neighborsOf pairs k, ?_, Finset.subset_union_right, ?_⟩
    · have hlen : i < (groups.set i (groups.getD i ∅ ∪ neighborsOf pairs k)).length := by
        rw [List.length_set]; exact hi
      have := List.getElem_set (l := groups) (m := i)
        (a := groups.getD i ∅ ∪ neighborsOf pairs k) hlen
      rw [if_pos rfl] at this
      exact this ▸ List.getElem_mem hlen
    · intro _
      apply Finset.mem_union_left
      rw [List.getD_eq_getElem groups ∅ hi]
      exact decide_eq_true_eq.mp hpi

theorem seedFold_inv (pairs : List (ℕ × ℕ)) (hdist : ∀ p ∈ pairs, p.1 ≠ p.2) :
    ∀ (oset S : List ℕ) (groups : List (Finset ℕ)),
      (∀ p ∈ pairs, (p.1 ∈ S → holdsIdx groups p.2) ∧ (p.2 ∈ S → holdsIdx groups p.1)) →
      (∀ p ∈ pairs, p.1 ∈ S → p.2 ∈ S → coversPair groups p.1 p.2) →
      (∀ p ∈ pairs,
          (p.1 ∈ S ++ oset → holdsIdx (oset.foldl (groupStep pairs) groups) p.2) ∧
          (p.2 ∈ S ++ oset → holdsIdx (oset.foldl (groupStep pairs) groups) p.1)) ∧
      (∀ p ∈ pairs, p.1 ∈ S ++ oset → p.2 ∈ S ++ oset →
          coversPair (oset.foldl (groupStep pairs) groups) p.1 p.2) := by
  intro oset
  induction oset with
  | nil =>
    intro S groups inv1 inv2
    rw [List.append_nil]
    exact ⟨inv1, inv2⟩
  | cons k ks ih =>
    intro S groups inv1 inv2
    have inv1' : ∀ p ∈ pairs,
        (p.1 ∈ S ++ [k] → holdsIdx (groupStep pairs groups k) p.2) ∧
        (p.2 ∈ S ++ [k] → holdsIdx (groupStep pairs groups k) p.1) := by
      intro p hp
      obtain ⟨U, hU, hNU, hkU⟩ := groupStep_new pairs groups k
      constructor
      · intro h
        rcases List.mem_append.mp h with h | h
        · exact holdsIdx_mono ((inv1 p hp).1 h)
        · have hk : p.1 = k := List.mem_singleton.mp h
          exact ⟨U, hU, hNU (mem_neighborsOf.mpr (Or.inl ⟨p, hp, hk, rfl⟩))⟩
      · intro h
        rcases List.mem_append.mp h with h | h
        · exact holdsIdx_mono ((inv1 p hp).2 h)
        · have hk : p.2 = k := List.mem_singleton.mp h
          exact ⟨U, hU, hNU (mem_neighborsOf.mpr
            (Or.inr ⟨p, hp, rfl, hk, fun h' => hdist p hp (h'.trans hk.symm)⟩))⟩
    have inv2' : ∀ p ∈ pairs, p.1 ∈ S ++ [k] → p.2 ∈ S ++ [k] →
        coversPair (groupStep pairs groups k) p.1 p.2 := by
      intro p hp h1 h2
      obtain ⟨U, hU, hNU, hkU⟩ := groupStep_new pairs groups k
      rcases List.mem_append.mp h1 with h1 | h1
      · rcases List.mem_append.mp h2 with h2 | h2
        · exact coversPair_mono (inv2 p hp h1 h2)
        · have hk : p.2 = k := List.mem_singleton.mp h2
          refine ⟨U, hU, hNU (mem_neighborsOf.mpr
            (Or.inr ⟨p, hp, rfl, hk, fun h' => hdist p hp (h'.trans hk.symm)⟩)), ?_⟩
          rw [hk]
          exact hkU (hk ▸ (inv1 p hp).1 h1)
      · have hk : p.1 = k := List.mem_singleton.mp h1
        rcases List.mem_append.mp h2 with h2 | h2
        · refine ⟨U, hU, ?_, hNU (mem_neighborsOf.mpr (Or.inl ⟨p, hp, hk, rfl⟩))⟩
          rw [hk]
          exact hkU (hk ▸ (inv1 p hp).2 h2)
        · exact absurd ((List.mem_singleton.mp h1).trans (List.mem_singleton.mp h2).symm)
            (hdist p hp)
    have := ih (S ++ [k]) (groupStep pairs groups k) inv1' inv2'
    rw [List.append_assoc, List.singleton_append] at this
    exact this

theorem seedGroups_covers (pairs : List (ℕ × ℕ)) (oset : List ℕ)
    (hdist : ∀ p ∈ pairs, p.1 ≠ p.2)
    (hin : ∀ p ∈ pairs, p.1 ∈ oset ∧ p.2 ∈ oset) :
    ∀ p ∈ pairs, coversPair (seedGroups oset pairs) p.1 p.2 := by
  intro p hp
  have h := (seedFold_inv pairs hdist oset [] []
    (fun p hp => ⟨fun h => absurd h (List.not_mem_nil _), fun h => absurd h (List.not_mem_nil _)⟩)
    (fun p hp h => absurd h (List.not_mem_nil _))).2
  rw [List.nil_append] at h
  exact h p hp (hin p hp).1 (hin p hp).2

theorem mergeStep_fst_sup (l : List (Finset ℕ)) : ∀ g : Finset ℕ, g ⊆ (mergeStep g l).1 := by
  induction l with
  | nil => intro g; exact subset_rfl
  | cons h t ih =>
    intro g
    by_cases hgh : (g ∩ h).Nonempty
    · simp only [mergeStep, if_pos hgh]
      exact subset_trans Finset.subset_union_left (ih (g ∪ h))
    · simp only [mergeStep, if_neg hgh]
      exact ih g

theorem mergeStep_mem (l : List (Finset ℕ)) :
    ∀ (g G : Finset ℕ), G ∈ l → G ⊆ (mergeStep g l).1 ∨ G ∈ (mergeStep g l).2 := by
  induction l with
  | nil =>
    intro g G hG
    exact absurd hG (List.not_mem_nil G)
  | cons h t ih =>
    intro g G hG
    by_cases hgh : (g ∩ h).Nonempty
    · simp only [mergeStep, if_pos hgh]
      rcases List.mem_cons.mp hG with rfl | hG'
      · exact Or.inl (subset_trans Finset.subset_union_right (mergeStep_fst_sup t (g ∪ G)))
      · exact ih (g ∪ h) G hG'
    · simp only [mergeStep, if_neg hgh]
      rcases List.mem_cons.mp hG with rfl | hG'
      · exact Or.inr (List.mem_cons_self _ _)
      · rcases ih g G hG' with hsub | hmem
        · exact Or.inl hsub
        · exact Or.inr (List.mem_cons_of_mem h hmem)

theorem mergeAllAux_mono (fuel : ℕ) :
    ∀ (l : List (Finset ℕ)), l.length ≤ fuel →
      ∀ G ∈ l, ∃ G' ∈ mergeAllAux fuel l, G ⊆ G' := by
  induction fuel with
  | zero =>
    intro l hl G hG
    rw [Nat.le_zero, List.length_eq_zero] at hl
    subst hl
    exact absurd hG (List.not_mem_nil G)
  | succ fuel ih =>
    intro l hl G hG
    match l with
    | [] => exact absurd hG (List.not_mem_nil G)
    | g :: rest =>
      have hlen : (mergeStep g rest).2.length ≤ fuel :=
        le_trans (mergeStep_snd_length g rest) (Nat.le_of_succ_le_succ hl)
      rcases List.mem_cons.mp hG with rfl | hG'
      · exact ⟨(mergeStep G rest).1, List.mem_cons_self _ _, mergeStep_fst_sup rest G⟩
      · rcases mergeStep_mem rest g G hG' with hsub | hmem
        · exact ⟨(mergeStep g rest).1, List.mem_cons_self _ _, hsub⟩
        · obtain ⟨G', hG', hsub⟩ := ih _ hlen G hmem
          exact ⟨G', List.mem_cons_of_mem _ hG', hsub⟩

theorem mergeAll_mono (l : List (Finset ℕ)) (G : Finset ℕ) (hG : G ∈ l) :
    ∃ G' ∈ mergeAll l, G ⊆ G' :=
  mergeAllAux_mono l.length l (Nat.le_refl _) G hG

/-- Every overlap pair has both endpoints inside a single returned group:
the part of the grouping contract that the single merge pass does preserve. -/
theorem groupOverlaps_covers (pairs : List (ℕ × ℕ)) (oset : List ℕ)
    (hdist : ∀ p ∈ pairs, p.1 ≠ p.2)
    (hin : ∀ p ∈ pairs, p.1 ∈ oset ∧ p.2 ∈ oset) :
    ∀ p ∈ pairs, coversPair (groupOverlaps oset pairs) p.1 p.2 := by
  intro p hp
  obtain ⟨G, hG, h1, h2⟩ := seedGroups_covers pairs oset hdist hin p hp
  obtain ⟨G', hG', hsub⟩ := mergeAll_mono (seedGroups oset pairs) G hG
  exact ⟨G', hG', hsub h1, hsub h2⟩

theorem foldl_union_mem_init (F : Finset ℕ → Finset ℕ) :
    ∀ (groups : List (Finset ℕ)) (init : Finset ℕ) (x : ℕ), x ∈ init →
      x ∈ groups.foldl (fun acc g => acc ∪ F g) init := by
  intro groups
  induction groups with
  | nil => intro init x hx; exact hx
  | cons g gs ih =>
    intro init x hx
    rw [List.foldl_cons]
    exact ih (init ∪ F g) x (Finset.mem_union_left _ hx)

theorem foldl_union_mem (F : Finset ℕ → Finset ℕ) :
    ∀ (groups : List (Finset ℕ)) (init : Finset ℕ) (G : Finset ℕ), G ∈ groups →
      ∀ x ∈ F G, x ∈ groups.foldl (fun acc g => acc ∪ F g) init := by
  intro groups
  induction groups with
  | nil =>
    intro init G hG
    exact absurd hG (List.not_mem_nil G)
  | cons g gs ih =>
    intro init G hG x hx
    rw [List.foldl_cons]
    rcases List.mem_cons.mp hG with rfl | hG'
    · exact foldl_union_mem_init F gs (init ∪ F G) x (Finset.mem_union_right _ hx)
    · exact ih (init ∪ F g) G hG' x hx

theorem pair_endpoints_distinct {results : List Region} {p : ℕ × ℕ}
    (hp : p ∈ findOverlaps results) : p.1 ≠ p.2 := by
  obtain ⟨a, b⟩ := p
  exact ne_of_lt (mem_findOverlaps.mp hp).1

theorem pair_endpoints_in_overlapIndexSet {results : List Region} {p : ℕ × ℕ}
    (hp : p ∈ findOverlaps results) :
    p.1 ∈ overlapIndexSet results.length (findOverlaps results) ∧
    p.2 ∈ overlapIndexSet results.length (findOverlaps results) := by
  obtain ⟨a, b⟩ := p
  obtain ⟨hab, hb, _⟩ := mem_findOverlaps.mp hp
  constructor
  · exact List.mem_filter.mpr ⟨List.mem_range.mpr (lt_trans hab hb),
      List.any_eq_true.mpr ⟨(a, b), hp, by simp⟩⟩
  · exact List.mem_filter.mpr ⟨List.mem_range.mpr hb,
      List.any_eq_true.mpr ⟨(a, b), hp, by simp⟩⟩

/-- Claim C7: for every pair in the computed overlap-pair set, at least one
of the two indices is removed, so at most one of the two regions survives
into the list returned by `get_list_of_regions`. -/
theorem survivors_not_overlapping (results : List Region) (i j : ℕ)
    (h : (i, j) ∈ findOverlaps results) :
    i ∈ removingSet results ∨ j ∈ removingSet results := by
  obtain ⟨G, hG, hiG, hjG⟩ :=
    groupOverlaps_covers (findOverlaps results)
      (overlapIndexSet results.length (findOverlaps results))
      (fun p hp => pair_endpoints_distinct hp)
      (fun p hp => pair_endpoints_in_overlapIndexSet hp) (i, j) h
  have hnb : isNeighbor (findOverlaps results) i j = true :=
    List.any_eq_true.mpr ⟨(i, j), h, by simp⟩
  have hedge := processGroupAux_edge (scoreKey results) (findOverlaps results)
    (G.sort (· ≤ ·)).length (G.sort (· ≤ ·)) i j (Nat.le_refl _)
    (pair_endpoints_distinct h) hnb
    ((Finset.mem_sort (· ≤ ·)).mpr hiG) ((Finset.mem_sort (· ≤ ·)).mpr hjG)
  rcases hedge with hmem | hmem
  · exact Or.inl (foldl_union_mem _ _ ∅ G hG i hmem)
  · exact Or.inr (foldl_union_mem _ _ ∅ G hG j hmem)

/-- Claim C3: in every round of `_process_group` on a nonempty working group,
the selected member attains the maximal score and is never removed; every
member removed in the round is a direct neighbour of the selected member
with a lower or equal score; members that are neither the selected member
nor its direct neighbours have their fate decided entirely by the next
round on the carried working group; and globally, every removed index has a
surviving direct neighbour with a higher or equal score. -/
theorem resolver_greedy_round (results : List Region) (pairs : List (ℕ × ℕ))
    (x : ℕ) (xs : List ℕ) :
    pythonMax (scoreKey results) (x :: xs) ∈ x :: xs ∧
    (∀ y ∈ x :: xs,
      scoreKey results y ≤ scoreKey results (pythonMax (scoreKey results) (x :: xs))) ∧
    pythonMax (scoreKey results) (x :: xs) ∉ processGroup (scoreKey results) pairs (x :: xs) ∧
    (∀ y ∈ roundRemoved (scoreKey results) pairs (x :: xs),
      isNeighbor pairs (pythonMax (scoreKey results) (x :: xs)) y = true ∧
      scoreKey results y ≤ scoreKey results (pythonMax (scoreKey results) (x :: xs)) ∧
      y ∈ processGroup (scoreKey results) pairs (x :: xs)) ∧
    (∀ y ∈ x :: xs, y ≠ pythonMax (scoreKey results) (x :: xs) →
      isNeighbor pairs (pythonMax (scoreKey results) (x :: xs)) y = false →
      (y ∈ processGroup (scoreKey results) pairs (x :: xs) ↔
        y ∈ processGroup (scoreKey results) pairs
          (roundCarried (scoreKey results) pairs (x :: xs)))) ∧
    (∀ y ∈ processGroup (scoreKey results) pairs (x :: xs),
      ∃ m, m ∈ x :: xs ∧ m ∉ processGroup (scoreKey results) pairs (x :: xs) ∧
        isNeighbor pairs m y = true ∧ scoreKey results y ≤ scoreKey results m) := by
  refine ⟨pythonMax_mem _ x xs, pythonMax_le _ x xs,
    processGroup_max_not_mem _ pairs x xs, ?_, ?_, ?_⟩
  · intro y hy
    obtain ⟨hyg, hyne, hynb⟩ := mem_roundRemoved.mp hy
    refine ⟨hynb, pythonMax_le _ x xs y hyg, ?_⟩
    rw [processGroup_cons]
    exact Finset.mem_union_left _ (List.mem_toFinset.mpr hy)
  · intro y hy hyne hynb
    rw [processGroup_cons]
    constructor
    · intro hmem
      rcases Finset.mem_union.mp hmem with h | h
      · obtain ⟨_, _, hnb'⟩ := mem_roundRemoved.mp (List.mem_toFinset.mp h)
        rw [hynb] at hnb'
        exact absurd hnb' Bool.false_ne_true
      · exact h
    · intro hmem
      exact Finset.mem_union_right _ hmem
  · intro y hy
    exact processGroupAux_dominated (scoreKey results) pairs (x :: xs).length (x :: xs)
      (Nat.le_refl _) y hy

/-- Witness for claim C3 on `demoPair`: index 1 is removed, and the theorem
produces its surviving higher-scoring direct neighbour. -/
theorem resolver_greedy_round_witness :
    (1 ∈ processGroup (scoreKey demoPair) (findOverlaps demoPair) [0, 1]) ∧
    ∃ m, m ∈ [0, 1] ∧ m ∉ processGroup (scoreKey demoPair) (findOverlaps demoPair) [0, 1] ∧
      isNeighbor (findOverlaps demoPair) m 1 = true ∧
      scoreKey demoPair 1 ≤ scoreKey demoPair m := by
  have h : processGroup (scoreKey demoPair) (findOverlaps demoPair) [0, 1] = {1} := by decide
  exact ⟨by rw [h]; decide,
    (resolver_greedy_round demoPair (findOverlaps demoPair) 0 [1]).2.2.2.2.2 1
      (by rw [h]; decide)⟩

/-- Witness for claim C7 on `demoPair`: the overlap pair `(0, 1)` is found
and at least one of the two indices is removed. -/
theorem survivors_not_overlapping_witness :
    (0, 1) ∈ findOverlaps demoPair ∧
      (0 ∈ removingSet demoPair ∨ 1 ∈ removingSet demoPair) :=
  ⟨by decide, survivors_not_overlapping demoPair 0 1 (by decide)⟩

theorem mem_foldl_union (F : Finset ℕ → Finset ℕ) :
    ∀ (groups : List (Finset ℕ)) (init : Finset ℕ) (x : ℕ),
      x ∈ groups.foldl (fun acc g => acc ∪ F g) init →
      x ∈ init ∨ ∃ G ∈ groups, x ∈ F G := by
  intro groups
  induction groups with
  | nil => intro init x hx; exact Or.inl hx
  | cons g gs ih =>
    intro init x hx
    rw [List.foldl_cons] at hx
    rcases ih (init ∪ F g) x hx with h | ⟨G, hG, hxG⟩
    · rcases Finset.mem_union.mp h with h' | h'
      · exact Or.inl h'
      · exact Or.inr ⟨g, List.mem_cons_self g gs, h'⟩
    · exact Or.inr ⟨G, List.mem_cons_of_mem g hG, hxG⟩

theorem isNeighbor_mem_pairs {pairs : List (ℕ × ℕ)} {a b : ℕ}
    (h : isNeighbor pairs a b = true) : (a, b) ∈ pairs ∨ (b, a) ∈ pairs := by
  obtain ⟨p, hp, hpred⟩ := List.any_eq_true.mp h
  obtain ⟨x, y⟩ := p
  simp only [Bool.or_eq_true, Bool.and_eq_true, beq_iff_eq] at hpred
  rcases hpred with ⟨rfl, rfl⟩ | ⟨rfl, rfl⟩
  · exact Or.inl hp
  · exact Or.inr hp

/-- Every removed index occurs in some overlap pair. -/
theorem removingSet_paired (results : List Region) (i : ℕ)
    (hi : i ∈ removingSet results) :
    ∃ m, (m, i) ∈ findOverlaps results ∨ (i, m) ∈ findOverlaps results := by
  rcases mem_foldl_union _ _ ∅ i hi with h | ⟨G, _, hG⟩
  · exact absurd h (Finset.not_mem_empty i)
  · obtain ⟨m, _, _, hnb, _⟩ := processGroupAux_dominated (scoreKey results)
      (findOverlaps results) (G.sort (· ≤ ·)).length (G.sort (· ≤ ·)) (Nat.le_refl _) i hG
    rcases isNeighbor_mem_pairs hnb with h | h
    · exact ⟨m, Or.inl h⟩
    · exact ⟨m, Or.inr h⟩

/-- Claim C9: the final region list is a subsequence of the input list in
original index order, and every isolated region (one appearing in no
overlap pair) survives unmodified at its original index within that
subsequence. -/
theorem final_list_subsequence_isolated (results : List Region) :
    List.Sublist (getListOfRegions results) results ∧
    (∀ i, i < results.length →
      (∀ j, (i, j) ∉ findOverlaps results ∧ (j, i) ∉ findOverlaps results) →
      (i, results.getD i defaultRegion) ∈
          results.enum.filter (fun p => decide (p.1 ∉ removingSet results)) ∧
        results.getD i defaultRegion ∈ getListOfRegions results) := by
  constructor
  · have h1 : List.Sublist
        (results.enum.filter (fun p => decide (p.1 ∉ removingSet results))) results.enum :=
      List.filter_sublist _
    have h2 := List.Sublist.map Prod.snd h1
    rw [List.enum_map_snd] at h2
    exact h2
  · intro i hi hiso
    have hnotrem : i ∉ removingSet results := by
      intro hmem
      obtain ⟨m, hm | hm⟩ := removingSet_paired results i hmem
      · exact (hiso m).2 hm
      · exact (hiso m).1 hm
    have henum : (i, results.getD i defaultRegion) ∈ results.enum := by
      rw [List.mem_enum_iff_getElem?]
      rw [List.getD_eq_getElem results defaultRegion hi]
      exact List.getElem?_eq_some.mpr ⟨hi, rfl⟩
    have hfil : (i, results.getD i defaultRegion) ∈
        results.enum.filter (fun p => decide (p.1 ∉ removingSet results)) :=
      List.mem_filter.mpr ⟨henum, decide_eq_true hnotrem⟩
    exact ⟨hfil, List.mem_map.mpr ⟨(i, results.getD i defaultRegion), hfil, rfl⟩⟩

/-- Witness for claim C9 on `demoScenario`: the isolated picture region
(index 2) survives unmodified. -/
theorem final_list_subsequence_isolated_witness :
    demoScenario.getD 2 defaultRegion ∈ getListOfRegions demoScenario := by
  refine ((final_list_subsequence_isolated demoScenario).2 2 (by decide) ?_).2
  intro j
  have hp : findOverlaps demoScenario = [(0, 1)] := by decide
  rw [hp]
  constructor
  · intro h
    have h' := List.mem_singleton.mp h
    simp [Prod.ext_iff] at h'
  · intro h
    have h' := List.mem_singleton.mp h
    simp [Prod.ext_iff] at h'

theorem filtered_enum_facts (results : List Region) (q : ℕ)
    (hq : q < (results.enum.filter (fun p => decide (p.1 ∉ removingSet results))).length) :
    ((results.enum.filter (fun p => decide (p.1 ∉ removingSet results)))[q].1 < results.length) ∧
    results.getD
        ((results.enum.filter (fun p => decide (p.1 ∉ removingSet results)))[q].1)
        defaultRegion =
      (results.enum.filter (fun p => decide (p.1 ∉ removingSet results)))[q].2 ∧
    (results.enum.filter (fun p => decide (p.1 ∉ removingSet results)))[q].1 ∉
      removingSet results := by
  have hmemF : (results.enum.filter (fun p => decide (p.1 ∉ removingSet results)))[q] ∈
      results.enum.filter (fun p => decide (p.1 ∉ removingSet results)) :=
    List.getElem_mem hq
  have henum := List.mem_of_mem_filter hmemF
  have hsome := List.mem_enum_iff_getElem?.mp henum
  obtain ⟨hlt, hval⟩ := List.getElem?_eq_some.mp hsome
  refine ⟨hlt, ?_, ?_⟩
  · rw [List.getD_eq_getElem results defaultRegion hlt]
    exact hval
  · have := (List.mem_filter.mp hmemF).2
    exact of_decide_eq_true this

theorem findOverlaps_output_nil (results : List Region) :
    findOverlaps (getListOfRegions results) = [] := by
  by_contra hne
  obtain ⟨p, hp⟩ := List.exists_mem_of_ne_nil _ hne
  obtain ⟨a, b⟩ := p
  obtain ⟨hab, hb, hover⟩ := mem_findOverlaps.mp hp
  have hlenmap : (getListOfRegions results).length =
      (results.enum.filter (fun p => decide (p.1 ∉ removingSet results))).length :=
    List.length_map _ _
  have hbF : b < (results.enum.filter (fun p => decide (p.1 ∉ removingSet results))).length :=
    hlenmap ▸ hb
  have haF : a < (results.enum.filter (fun p => decide (p.1 ∉ removingSet results))).length :=
    lt_trans hab hbF
  obtain ⟨haI, haV, haP⟩ := filtered_enum_facts results a haF
  obtain ⟨hbI, hbV, hbP⟩ := filtered_enum_facts results b hbF
  -- original indices are strictly increasing along the filtered enumeration
  have hpw : (results.enum.filter (fun p => decide (p.1 ∉ removingSet results))).Pairwise
      (fun x y => x.1 < y.1) := by
    apply List.Pairwise.sublist (List.filter_sublist _)
    apply List.pairwise_map.mp
    rw [List.enum_map_fst]
    exact List.pairwise_lt_range _
  have hmono : (results.enum.filter (fun p => decide (p.1 ∉ removingSet results)))[a].1 <
      (results.enum.filter (fun p => decide (p.1 ∉ removingSet results)))[b].1 := by
    have := List.pairwise_iff_get.mp hpw ⟨a, haF⟩ ⟨b, hbF⟩ (Fin.mk_lt_mk.mpr hab)
    simpa [List.get_eq_getElem] using this
  -- the surviving regions at positions a and b geometrically overlap
  have hgetA : (getListOfRegions results).getD a defaultRegion =
      (results.enum.filter (fun p => decide (p.1 ∉ removingSet results)))[a].2 := by
    rw [List.getD_eq_getElem _ _ (hlenmap ▸ haF : a < (getListOfRegions results).length)]
    exact List.getElem_map Prod.snd
  have hgetB : (getListOfRegions results).getD b defaultRegion =
      (results.enum.filter (fun p => decide (p.1 ∉ removingSet results)))[b].2 := by
    rw [List.getD_eq_getElem _ _ (hlenmap ▸ hbF : b < (getListOfRegions results).length)]
    exact List.getElem_map Prod.snd
  have hpair : ((results.enum.filter (fun p => decide (p.1 ∉ removingSet results)))[a].1,
      (results.enum.filter (fun p => decide (p.1 ∉ removingSet results)))[b].1) ∈
      findOverlaps results := by
    apply mem_findOverlaps.mpr
    refine ⟨hmono, hbI, ?_⟩
    rw [haV, hbV, ← hgetA, ← hgetB]
    exact hover
  rcases survivors_not_overlapping results _ _ hpair with h | h
  · exact haP h
  · exact hbP h

/-- Claim C8: region conflict resolution is idempotent — running
`get_list_of_regions` on its own output returns the output unchanged,
because no two survivors overlap, so the second run finds no overlap pairs
and removes nothing. -/
theorem region_resolution_idempotent (results : List Region) :
    getListOfRegions (getListOfRegions results) = getListOfRegions results := by
  have hnil := findOverlaps_output_nil results
  have hrem : removingSet (getListOfRegions results) = ∅ := by
    unfold removingSet
    rw [hnil]
    have hoset : overlapIndexSet (getListOfRegions results).length [] = [] := by
      simp [overlapIndexSet]
    rw [hoset]
    rfl
  show ((getListOfRegions results).enum.filter
      (fun p => decide (p.1 ∉ removingSet (getListOfRegions results)))).map Prod.snd
    = getListOfRegions results
  rw [hrem]
  have : (fun p : ℕ × Region => decide (p.1 ∉ (∅ : Finset ℕ))) = fun _ => true := by
    funext p
    simp
  rw [this, List.filter_true, List.enum_map_snd]

theorem mkElement_bbox (T : QRect → PageRect) (r : Region) :
    (mkElement T r).1.bbox =
      [(T (qrectOfDev (devRectForRegion r))).left,
       (T (qrectOfDev (devRectForRegion r))).bottom,
       (T (qrectOfDev (devRectForRegion r))).right,
       (T (qrectOfDev (devRectForRegion r))).top] :=
  rfl

theorem foldl_skip_eq (T : QRect → PageRect) :
    ∀ (l : List Region) (init : List Element),
      l.foldl (fun acc r =>
          if r.label = "List-item" then acc else acc ++ [(mkElement T r).1]) init =
        init ++ (l.filter (fun r => !(r.label == "List-item"))).map
          (fun r => (mkElement T r).1) := by
  intro l
  induction l with
  | nil => intro init; simp
  | cons r rs ih =>
    intro init
    rw [List.foldl_cons]
    by_cases h : r.label = "List-item"
    · rw [if_pos h, ih]
      simp [List.filter_cons, h]
    · rw [if_neg h, ih]
      simp [List.filter_cons, h]

/-- Claim C5 (counterexample): on `truncRegion` the code passes the
integer-truncated rectangle `(8, 2, 22, 32)` to the transform, so the
element's bbox starts with `8`, while the claimed exact 2-unit expansion
would pass `10.5 - 2 = 8.5` and yield a bbox starting with `8.5`. -/
theorem element_bbox_exact_expansion_false :
    (mkElement demoTransform truncRegion).1.bbox = [8, 68, 22, 98] ∧
    bboxPerClaim demoTransform truncRegion = [17/2, 68, 22, 98] ∧
    (mkElement demoTransform truncRegion).1.bbox ≠ bboxPerClaim demoTransform truncRegion := by
  have h1 : (mkElement demoTransform truncRegion).1.bbox = [8, 68, 22, 98] := by
    simp [mkElement, baseElement, demoTransform, truncRegion, qrectOfDev, devRectForRegion,
      pyInt]
    norm_num
  have h2 : bboxPerClaim demoTransform truncRegion = [17/2, 68, 22, 98] := by
    simp [bboxPerClaim, demoTransform, truncRegion]
    norm_num
  refine ⟨h1, h2, ?_⟩
  rw [h1, h2]
  intro h
  have h8 := congrArg (fun l : List ℚ => l.getD 0 0) h
  simp only [List.getD_cons_zero] at h8
  norm_num at h8

/-- Claim C5 (amended): for every surviving region, the element's bbox field
is the (left, bottom, right, top) serialization of the page-view transform
applied to the box expanded outward by 2 units on each side and then
truncated toward zero to integers by `int()` (the `PdfDevRect` fields are
integers); for labels other than "List-item" that element reaches the
output. -/
theorem element_bbox_offset_transform (T : QRect → PageRect) (results : List Region)
    (r : Region) (hr : r ∈ getListOfRegions results) :
    (mkElement T r).1.bbox =
      [(T (qrectOfDev (devRectForRegion r))).left,
       (T (qrectOfDev (devRectForRegion r))).bottom,
       (T (qrectOfDev (devRectForRegion r))).right,
       (T (qrectOfDev (devRectForRegion r))).top] ∧
    (r.label ≠ "List-item" → (mkElement T r).1 ∈ createJsonForElements T results) := by
  refine ⟨mkElement_bbox T r, ?_⟩
  intro hlabel
  unfold createJsonForElements
  rw [foldl_skip_eq, List.nil_append]
  apply (List.mergeSort_perm _ elemLe).mem_iff.mpr
  apply List.mem_map.mpr
  refine ⟨r, List.mem_filter.mpr ⟨hr, ?_⟩, rfl⟩
  simp [hlabel]

/-- Witness for claim C5's amended theorem on one surviving text region. -/
theorem element_bbox_offset_transform_witness :
    (mkElement demoTransform demoTextRegion).1.bbox =
      [(demoTransform (qrectOfDev (devRectForRegion demoTextRegion))).left,
       (demoTransform (qrectOfDev (devRectForRegion demoTextRegion))).bottom,
       (demoTransform (qrectOfDev (devRectForRegion demoTextRegion))).right,
       (demoTransform (qrectOfDev (devRectForRegion demoTextRegion))).top] ∧
    (mkElement demoTransform demoTextRegion).1 ∈
      createJsonForElements demoTransform [demoTextRegion] := by
  have h := element_bbox_offset_transform demoTransform [demoTextRegion] demoTextRegion
    (by decide)
  exact ⟨h.1, h.2 (by decide)⟩

theorem elemLe_trans (a b c : Element) (hab : elemLe a b = true) (hbc : elemLe b c = true) :
    elemLe a c = true := by
  simp only [elemLe, decide_eq_true_eq] at hab hbc ⊢
  rcases hab with h | ⟨h1, h2⟩ <;> rcases hbc with h' | ⟨h1', h2'⟩
  · exact Or.inl (lt_trans h' h)
  · exact Or.inl (by rw [h1']; exact h)
  · exact Or.inl (by rw [← h1]; exact h')
  · exact Or.inr ⟨h1'.trans h1, le_trans h2' h2⟩

theorem elemLe_total (a b : Element) : (elemLe a b || elemLe b a) = true := by
  simp only [elemLe, Bool.or_eq_true, decide_eq_true_eq]
  rcases lt_trichotomy (bbN 1 a) (bbN 1 b) with h | h | h
  · exact Or.inr (Or.inl h)
  · rcases le_total (1000 - bbN 0 b) (1000 - bbN 0 a) with h' | h'
    · exact Or.inl (Or.inr ⟨h.symm, h'⟩)
    · exact Or.inr (Or.inr ⟨h, h'⟩)
  · exact Or.inl (Or.inl h)

/-- Claim C2 (amended): the element sorter is a stable sort whose key is
the SECOND serialized bbox coordinate — the page-space bottom edge —
descending, then the left edge ascending: the output is a permutation of
the input, pairwise ordered by (bottom descending, left ascending), and
elements with equal keys keep their input order. -/
theorem element_sorter_bottom_key (l : List Element) :
    (sortElements l).Perm l ∧
    (sortElements l).Pairwise (fun x y =>
      bbN 1 y < bbN 1 x ∨ (bbN 1 y = bbN 1 x ∧ bbN 0 x ≤ bbN 0 y)) ∧
    (∀ a b : Element, [a, b].Sublist l → bbN 1 a = bbN 1 b → bbN 0 a = bbN 0 b →
      [a, b].Sublist (sortElements l)) := by
  refine ⟨List.mergeSort_perm l elemLe, ?_, ?_⟩
  · have h := List.sorted_mergeSort elemLe_trans elemLe_total l
    apply h.imp
    intro a b hab
    simp only [elemLe, decide_eq_true_eq] at hab
    rcases hab with h' | ⟨h1, h2⟩
    · exact Or.inl h'
    · exact Or.inr ⟨h1, by linarith⟩
  · intro a b hsub h1 h0
    apply List.sublist_mergeSort elemLe_trans elemLe_total _ hsub
    refine List.pairwise_pair.mpr ?_
    simp only [elemLe, decide_eq_true_eq]
    exact Or.inr ⟨h1.symm, by rw [h0]⟩

/-- Claim C2 (counterexample): the code's sorter reads `bbox[1]`, the
page-space bottom edge, so it puts `elemShort` (bottom 10) before
`elemTall` (bottom 5) although `elemTall`'s top edge (20) is higher; a sort
keyed on the top edge, as the claim states, orders them the other way. -/
theorem element_sorter_top_key_false :
    sortElements [elemTall, elemShort] = [elemShort, elemTall] ∧
    sortElementsSpecTop [elemTall, elemShort] = [elemTall, elemShort] ∧
    sortElements [elemTall, elemShort] ≠ sortElementsSpecTop [elemTall, elemShort] := by
  have ha : elemLe elemTall elemShort = false := by
    norm_num [elemLe, bbN, elemTall, elemShort]
  have hb : elemLeSpecTop elemTall elemShort = true := by
    norm_num [elemLeSpecTop, bbN, elemTall, elemShort]
  have h1 : sortElements [elemTall, elemShort] = [elemShort, elemTall] := by
    simp [sortElements, List.mergeSort, List.merge, ha]
  have h2 : sortElementsSpecTop [elemTall, elemShort] = [elemTall, elemShort] := by
    simp [sortElementsSpecTop, List.mergeSort, List.merge, hb]
  refine ⟨h1, h2, ?_⟩
  rw [h1, h2]
  intro h
  have := congrArg (fun l => (l.getD 0 elemTall).bbox.getD 1 0) h
  simp [elemTall, elemShort] at this

/-- Witness for claim C2's amended theorem: permutation on a concrete list,
and stability for the two equal-key elements. -/
theorem element_sorter_bottom_key_witness :
    (sortElements [elemKeyA, elemKeyB]).Perm [elemKeyA, elemKeyB] ∧
    [elemKeyA, elemKeyB].Sublist (sortElements [elemKeyA, elemKeyB]) :=
  ⟨(element_sorter_bottom_key [elemKeyA, elemKeyB]).1,
   (element_sorter_bottom_key [elemKeyA, elemKeyB]).2.2 elemKeyA elemKeyB
     (List.Sublist.refl _) (by decide) (by decide)⟩

/-- Claim C6: regions labelled "List-item" never contribute an element —
the element output is exactly the sorted classification of the surviving
regions whose label is not "List-item", so its length counts only those. -/
theorem list_item_never_output (T : QRect → PageRect) (results : List Region) :
    createJsonForElements T results =
      sortElements (((getListOfRegions results).filter
        (fun r => !(r.label == "List-item"))).map (fun r => (mkElement T r).1)) ∧
    (createJsonForElements T results).length =
      ((getListOfRegions results).filter (fun r => !(r.label == "List-item"))).length := by
  have h : createJsonForElements T results =
      sortElements (((getListOfRegions results).filter
        (fun r => !(r.label == "List-item"))).map (fun r => (mkElement T r).1)) := by
    unfold createJsonForElements
    rw [foldl_skip_eq, List.nil_append]
  refine ⟨h, ?_⟩
  rw [h]
  unfold sortElements
  rw [(List.mergeSort_perm _ elemLe).length_eq, List.length_map]

/-- Claim C10: a surviving region whose label is outside the known
vocabulary is classified by the fallback case: generic text with
`no_join|no_split` flag, `no_new_line` text flag, no tag, a warning is
logged, and (the label not being "List-item") its element reaches the
output. -/
theorem unknown_label_generic_text (T : QRect → PageRect) (r : Region)
    (h : r.label ∉ knownLabels) :
    (mkElement T r).1.etype = "pde_text" ∧
    (mkElement T r).1.flag = "no_join|no_split" ∧
    (mkElement T r).1.text_flag = some "no_new_line" ∧
    (mkElement T r).1.tag = none ∧
    (mkElement T r).2 = true ∧
    (∀ results, r ∈ getListOfRegions results →
      (mkElement T r).1 ∈ createJsonForElements T results) := by
  simp only [knownLabels, List.mem_cons, List.not_mem_nil, or_false, not_or] at h
  obtain ⟨hC, hCS, hCU, hCo, hDI, hFo, hFm, hFa, hKV, hPi, hPf, hPh, hLi, hSh, hTa,
    hTe, hTi⟩ := h
  have hrow : classRow r.label =
      { tag := none, flag := "no_join|no_split", text_flag := some "no_new_line",
        etype := "pde_text", heading := none, warn := true } := by
    unfold classRow
    rw [if_neg hC, if_neg hCS, if_neg hCU, if_neg hCo, if_neg hDI, if_neg hFo, if_neg hFm,
      if_neg hFa, if_neg hKV, if_neg hPi, if_neg hPf, if_neg hPh, if_neg hLi, if_neg hSh,
      if_neg hTa, if_neg hTe, if_neg hTi]
  refine ⟨?_, ?_, ?_, ?_, ?_, ?_⟩
  · show (classRow r.label).etype = "pde_text"
    rw [hrow]
  · show (classRow r.label).flag = "no_join|no_split"
    rw [hrow]
  · show (classRow r.label).text_flag = some "no_new_line"
    rw [hrow]
  · show (classRow r.label).tag = none
    rw [hrow]
  · show (classRow r.label).warn = true
    rw [hrow]
  · intro results hr
    unfold createJsonForElements
    rw [foldl_skip_eq, List.nil_append]
    apply (List.mergeSort_perm _ elemLe).mem_iff.mpr
    apply List.mem_map.mpr
    refine ⟨r, List.mem_filter.mpr ⟨hr, ?_⟩, rfl⟩
    simp [hLi]

/-- Witness for claim C10: the "Banana" region falls through to generic
text, warns, and its element reaches the output. -/
theorem unknown_label_generic_text_witness :
    (mkElement demoTransform demoUnknown).1.etype = "pde_text" ∧
    (mkElement demoTransform demoUnknown).2 = true ∧
    (mkElement demoTransform demoUnknown).1 ∈
      createJsonForElements demoTransform [demoUnknown] := by
  have h := unknown_label_generic_text demoTransform demoUnknown (by decide)
  exact ⟨h.1, h.2.2.2.2.1, h.2.2.2.2.2 [demoUnknown] (by decide)⟩
